import Mathlib

/-!
Verification of `telegram_checker.py` (repository `telegram-checker`).

Shallow embedding conventions:
* Python strings are `List Char`; `str.lower()` is `Char.toLower` mapped over
  the characters (the ASCII fragment of Python case folding).
* A Telethon `Message` is a record of the fields the program reads:
  `id`, `text` (nullable), `date`, `reply_to_msg_id` (nullable), `replies`
  (nullable reply-support information).
* Timestamps (`msg.date`, already converted with `astimezone` to the fixed
  Kyiv zone) are modelled as `Int` seconds; the timezone conversion is the
  identity at the model boundary, so ordering and formatting agree with the
  source.
* The remote client is a parameter: `resolve` maps a configured group name to
  an optional resolved entity together with its message stream (newest
  first); `get_entity` failure is `none` and is skipped like the source's
  try/except.  The per-post reply stream is a function returning the replies
  actually yielded plus a flag recording whether the stream then raised
  `MsgIdInvalidError` (the stream may fail after yielding a prefix).
* File writing is modelled by returning the written bytes (`List Char`), and
  the in-place `list.sort` mutation by returning the list value the caller's
  variable holds after the call.
-/

namespace TelegramChecker

/-- Python `str.lower()` on the ASCII fragment: lowercase every character. -/
def lowerStr (s : List Char) : List Char := s.map Char.toLower

/-- Python substring containment `needle in hay` for strings. -/
def substrOf (needle : List Char) : List Char → Bool
  | [] => needle.isEmpty
  | c :: rest => needle.isPrefixOf (c :: rest) || substrOf needle rest

/-- The fields of a Telethon message that `telegram_checker.py` reads. -/
structure Message where
  id : Nat
  text : Option (List Char)
  date : Int
  reply_to_msg_id : Option Nat
  replies : Option Nat
deriving DecidableEq

/-- A resolved group entity: only its `username` attribute is read
(`hasattr(entity, 'username') and entity.username`); a missing attribute or a
falsy username is `none`. -/
structure Entity where
  eid : Nat
  username : Option (List Char)
deriving DecidableEq

/-- The truth value of `msg.text and any(keyword.lower() in msg.text.lower()
for keyword in keywords)`: Python string truthiness makes a `None` or empty
text fail the test. -/
def keywordMatch (keywords : List (List Char)) (text : Option (List Char)) : Bool :=
  match text with
  | none => false
  | some t => !t.isEmpty && keywords.any (fun keyword => substrOf (lowerStr keyword) (lowerStr t))

/-- The post tuples `(entity, post, group_username)` threaded through the
pipeline. -/
abbrev PostTuple := Entity × Message × List Char

/-- The comment tuples `(entity, comment, group_username, post)`. -/
abbrev CommentTuple := Entity × Message × List Char × Message

/-- The message loop of `fetch_posts` for one group: stream newest first,
`break` once a message is older than the threshold, keep only top-level
messages (`reply_to_msg_id is None`). -/
def fetch_group_posts (time_threshold : Int) : List Message → List Message
  | [] => []
  | msg :: rest =>
    if msg.date < time_threshold then []
    else if msg.reply_to_msg_id = none then msg :: fetch_group_posts time_threshold rest
    else fetch_group_posts time_threshold rest

/-- `fetch_posts`: for each configured group, resolve it (a failure is
reported and skipped) and collect that group's retained messages as
`(entity, msg, group_username)` tuples. -/
def fetch_posts (resolve : List Char → Option (Entity × List Message))
    (groups : List (List Char)) (time_threshold : Int) : List PostTuple :=
  groups.flatMap (fun group_username =>
    match resolve group_username with
    | none => []
    | some (entity, msgs) =>
        (fetch_group_posts time_threshold msgs).map (fun msg => (entity, msg, group_username)))

/-- `filter_posts_by_keywords`: retain the tuples whose message text passes
the keyword test. -/
def filter_posts_by_keywords (keywords : List (List Char)) (posts : List PostTuple) :
    List PostTuple :=
  posts.filter (fun x => keywordMatch keywords x.2.1.text)

/-- Outcome of iterating `client.iter_messages(entity, reply_to=post.id)`:
the replies the stream yielded before finishing, and whether it then raised
`MsgIdInvalidError` instead of finishing normally. -/
structure ReplyStreamResult where
  yielded : List Message
  msgIdInvalid : Bool
deriving DecidableEq

/-- The collection loop of `fetch_comments`: posts without reply support are
skipped; otherwise every reply yielded before the stream ends or raises
`MsgIdInvalidError` has already been appended to the shared `comments` list,
and the `except` clause just continues with the next post. -/
def collect_comments (stream : Entity → Nat → ReplyStreamResult)
    (posts : List PostTuple) : List CommentTuple :=
  posts.flatMap (fun x =>
    if x.2.1.replies = none then []
    else ((stream x.1 x.2.1.id).yielded).map (fun reply => (x.1, reply, x.2.2, x.2.1)))

/-- `fetch_comments`: collect the replies of every post, then keep the ones
whose text passes the keyword test. -/
def fetch_comments (stream : Entity → Nat → ReplyStreamResult)
    (keywords : List (List Char)) (posts : List PostTuple) : List CommentTuple :=
  (collect_comments stream posts).filter (fun x => keywordMatch keywords x.2.1.text)

/-- The opening markup emitted by the replacement function `repl` of
`highlight_keywords` (everything of the f-string before the matched group). -/
def spanOpen : List Char :=
  "<span style=\"background-color: yellow; color: black; font-weight: bold;\">".data

/-- The closing markup emitted by `repl` after the matched group. -/
def spanClose : List Char := "</span>".data

/-- The alternatives of the compiled pattern
`re.compile("|".join(re.escape(keyword) for keyword in keywords), re.IGNORECASE)`:
each keyword is a literal alternative, tried in list order; joining the empty
keyword list yields the empty pattern, which is the single empty literal. -/
def reAlternatives (keywords : List (List Char)) : List (List Char) :=
  if keywords.isEmpty then [[]] else keywords

/-- The pattern's match attempt at the start of `s`: the first alternative, in
pattern order, whose letters match case-insensitively. -/
def reMatchAt (keywords : List (List Char)) (s : List Char) : Option (List Char) :=
  (reAlternatives keywords).find? (fun k => (lowerStr k).isPrefixOf (lowerStr s))

/-- The scan of `pattern.sub(repl, text)` (fuel-indexed so the recursion is
structural; `highlight_keywords` supplies sufficient fuel).  At each position
the leftmost match wins; a non-empty match is wrapped and the scan resumes
after it; an empty match is replaced and the following character is copied
(Python 3.7+ semantics); with no match the character is copied. -/
def reSubAux (keywords : List (List Char)) : Nat → List Char → List Char
  | _, [] =>
    match reMatchAt keywords [] with
    | some _ => spanOpen ++ spanClose
    | none => []
  | 0, _ :: _ => []
  | fuel + 1, c :: cs =>
    match reMatchAt keywords (c :: cs) with
    | some k =>
      if k.length = 0 then
        spanOpen ++ spanClose ++ c :: reSubAux keywords fuel cs
      else
        spanOpen ++ (c :: cs).take k.length ++ spanClose ++
          reSubAux keywords fuel ((c :: cs).drop k.length)
    | none => c :: reSubAux keywords fuel cs

/-- `highlight_keywords(text, keywords)`: substitute every pattern match of
the keyword alternation by the emphasis markup wrapping the matched group. -/
def highlight_keywords (text : List Char) (keywords : List (List Char)) : List Char :=
  reSubAux keywords text.length text

/-- One block of the decomposition of a text under the highlight scan: a run
of raw characters, flagged when it is a pattern match that gets wrapped. -/
structure HlBlock where
  raw : List Char
  isMatch : Bool
deriving DecidableEq

/-- How a block appears in the output of the scan. -/
def HlBlock.render (b : HlBlock) : List Char :=
  if b.isMatch then spanOpen ++ b.raw ++ spanClose else b.raw

/-- The block decomposition the highlight scan induces on a text. -/
def blocksOfAux (keywords : List (List Char)) : Nat → List Char → List HlBlock
  | _, [] =>
    match reMatchAt keywords [] with
    | some _ => [⟨[], true⟩]
    | none => []
  | 0, _ :: _ => []
  | fuel + 1, c :: cs =>
    match reMatchAt keywords (c :: cs) with
    | some k =>
      if k.length = 0 then
        ⟨[], true⟩ :: ⟨[c], false⟩ :: blocksOfAux keywords fuel cs
      else
        ⟨(c :: cs).take k.length, true⟩ :: blocksOfAux keywords fuel ((c :: cs).drop k.length)
    | none => ⟨[c], false⟩ :: blocksOfAux keywords fuel cs

/-- The block decomposition of `text` under `highlight_keywords`. -/
def hlBlocks (text : List Char) (keywords : List (List Char)) : List HlBlock :=
  blocksOfAux keywords text.length text

/-- Correctness of a block decomposition with respect to a keyword list:
every matched block is a case-insensitive occurrence of some keyword, and at
every unmatched block (a single copied character) no keyword occurrence
starts. -/
def decompOK (keywords : List (List Char)) : List HlBlock → Prop
  | [] => True
  | b :: rest =>
    (b.isMatch = true → ∃ k ∈ keywords, lowerStr b.raw = lowerStr k) ∧
    (b.isMatch = false → b.raw.length = 1 ∧
      ∀ k ∈ keywords,
        (lowerStr k).isPrefixOf (lowerStr (((b :: rest).map HlBlock.raw).flatten)) = false) ∧
    decompOK keywords rest

/-- A Kyiv-local wall-clock instant: the civil day index of the current date
and the second within that day (`datetime.now(self.tz)` decomposed into the
fields `replace` manipulates). -/
structure LocalDateTime where
  day : Int
  sod : Nat
deriving DecidableEq

/-- The instant on the local timeline, in seconds. -/
def LocalDateTime.toSec (t : LocalDateTime) : Int := t.day * 86400 + t.sod

/-- `now.replace(hour=0, minute=0, second=0, microsecond=0)`: midnight of the
current local date. -/
def LocalDateTime.replaceMidnight (t : LocalDateTime) : LocalDateTime := ⟨t.day, 0⟩

/-- Rebuild a local instant from seconds. -/
def localOfSec (s : Int) : LocalDateTime := ⟨s / 86400, (s % 86400).toNat⟩

/-- `now - timedelta(hours=h)`. -/
def LocalDateTime.subHours (t : LocalDateTime) (h : Nat) : LocalDateTime :=
  localOfSec (t.toSec - h * 3600)

/-- `_get_time_filter`: threshold is local midnight when `time_filter == 0`,
otherwise now minus `time_filter` hours. -/
def _get_time_filter (now : LocalDateTime) (time_filter : Nat) : LocalDateTime :=
  if time_filter = 0 then now.replaceMidnight else now.subHours time_filter

/-- Decimal rendering zero-padded to two digits (`%m %d %H %M %S`). -/
def pad2 (n : Nat) : List Char :=
  if n < 10 then '0' :: Nat.toDigits 10 n else Nat.toDigits 10 n

/-- Decimal rendering zero-padded to four digits (`%Y` for common-era years). -/
def pad4 (n : Nat) : List Char :=
  List.replicate (4 - (Nat.toDigits 10 n).length) '0' ++ Nat.toDigits 10 n

/-- Civil date (year, month, day) of a day index counted from 1970-01-01,
proleptic Gregorian calendar. -/
def civilFromDays (z : Int) : Int × Nat × Nat :=
  let z' := z + 719468
  let era : Int := z'.ediv 146097
  let doe : Nat := (z' - era * 146097).toNat
  let yoe : Nat := (doe - doe / 1460 + doe / 36524 - doe / 146096) / 365
  let doy : Nat := doe - (365 * yoe + yoe / 4 - yoe / 100)
  let mp : Nat := (5 * doy + 2) / 153
  let d : Nat := doy - (153 * mp + 2) / 5 + 1
  let m : Nat := if mp < 10 then mp + 3 else mp - 9
  (era * 400 + yoe + (if m ≤ 2 then 1 else 0), m, d)

/-- `strftime('%Y-%m-%d %H:%M:%S')` of a local instant given in seconds. -/
def fmtDateTime (t : Int) : List Char :=
  let days := t.ediv 86400
  let sod := (t.emod 86400).toNat
  let ymd := civilFromDays days
  pad4 ymd.1.toNat ++ '-' :: pad2 ymd.2.1 ++ '-' :: pad2 ymd.2.2 ++
    ' ' :: pad2 (sod / 3600) ++ ':' :: pad2 (sod % 3600 / 60) ++ ':' :: pad2 (sod % 60)

/-- The deep link of a post entry in `save_posts`:
`https://t.me/{entity.username}/{post.id}` when the entity has a truthy
username, otherwise the literal placeholder. -/
def postLink (entity : Entity) (post : Message) : List Char :=
  match entity.username with
  | some username => "https://t.me/".data ++ username ++ '/' :: Nat.toDigits 10 post.id
  | none => "No public link".data

/-- The deep link of a comment entry in `save_comments`:
`https://t.me/{entity.username}/{post.id}?comment={comment.id}` when the
entity has a truthy username, otherwise the literal placeholder. -/
def commentLink (entity : Entity) (post : Message) (comment : Message) : List Char :=
  match entity.username with
  | some username =>
      "https://t.me/".data ++ username ++ '/' :: Nat.toDigits 10 post.id ++
        "?comment=".data ++ Nat.toDigits 10 comment.id
  | none => "No public link".data

/-- The text handed to `highlight_keywords` by the writers; the pipeline only
writes keyword-filtered items, whose text is present. -/
def textOrEmpty (t : Option (List Char)) : List Char := t.getD []

/-- The bytes the `f.write` calls of `save_posts` emit for one post tuple. -/
def renderPostEntry (keywords : List (List Char)) (x : PostTuple) : List Char :=
  "### Group: ".data ++ x.2.2 ++ "\n".data ++
    "**Date:** ".data ++ fmtDateTime x.2.1.date ++ " (Kyiv)".data ++ "\n\n".data ++
    "**Post:**".data ++ "\n\n".data ++
    highlight_keywords (textOrEmpty x.2.1.text) keywords ++ "\n\n".data ++
    "[Post Link](".data ++ postLink x.1 x.2.1 ++ ")".data ++ "\n\n".data ++
    "---\n\n".data

/-- The bytes the `f.write` calls of `save_comments` emit for one comment
tuple. -/
def renderCommentEntry (keywords : List (List Char)) (x : CommentTuple) : List Char :=
  "### Group: ".data ++ x.2.2.1 ++ "\n".data ++
    "**Comment Date:** ".data ++ fmtDateTime x.2.1.date ++ " (Kyiv)".data ++ "\n\n".data ++
    "**Comment:**".data ++ "\n\n".data ++
    highlight_keywords (textOrEmpty x.2.1.text) keywords ++ "\n\n".data ++
    "[Comment Link](".data ++ commentLink x.1 x.2.2.2 x.2.1 ++ ")".data ++ "\n\n".data ++
    "---\n\n".data

/-- Ascending comparison on the sort key `lambda x: x[1].date` of
`save_posts`. -/
def postDateLE (a b : PostTuple) : Prop := a.2.1.date ≤ b.2.1.date

/-- Ascending comparison on the sort key `lambda x: x[1].date` of
`save_comments`. -/
def commentDateLE (a b : CommentTuple) : Prop := a.2.1.date ≤ b.2.1.date

instance : DecidableRel postDateLE :=
  fun a b => inferInstanceAs (Decidable (a.2.1.date ≤ b.2.1.date))

instance : DecidableRel commentDateLE :=
  fun a b => inferInstanceAs (Decidable (a.2.1.date ≤ b.2.1.date))

instance : IsTotal PostTuple postDateLE := ⟨fun _ _ => Int.le_total _ _⟩

instance : IsTrans PostTuple postDateLE := ⟨fun _ _ _ => Int.le_trans⟩

instance : IsTotal CommentTuple commentDateLE := ⟨fun _ _ => Int.le_total _ _⟩

instance : IsTrans CommentTuple commentDateLE := ⟨fun _ _ _ => Int.le_trans⟩

/-- `save_posts`: sort the caller's list in place ascending by date (Python
`list.sort` is a stable sort, modelled by insertion sort), then overwrite
`saved_posts.md` with one block per post.  Returns the list value the
caller's variable holds after the call and the written bytes. -/
def save_posts (keywords : List (List Char)) (posts : List PostTuple) :
    List PostTuple × List Char :=
  let sorted := List.insertionSort postDateLE posts
  (sorted, (sorted.map (renderPostEntry keywords)).flatten)

/-- `save_comments`: sort the caller's list in place ascending by date, then
overwrite `saved_comments.md` with one block per comment. -/
def save_comments (keywords : List (List Char)) (comments : List CommentTuple) :
    List CommentTuple × List Char :=
  let sorted := List.insertionSort commentDateLE comments
  (sorted, (sorted.map (renderCommentEntry keywords)).flatten)

theorem substrOf_iff (needle hay : List Char) :
    substrOf needle hay = true ↔ needle <:+: hay := by
  induction hay with
  | nil =>
    simp only [substrOf, List.isEmpty_iff]
    exact ⟨fun h => h ▸ List.infix_rfl, fun h => List.eq_nil_of_infix_nil h⟩
  | cons c rest ih =>
    simp [substrOf, List.infix_cons_iff, ih, List.isPrefixOf_iff_prefix]

theorem keywordMatch_iff (keywords : List (List Char)) (txt : Option (List Char)) :
    keywordMatch keywords txt = true ↔
      ∃ t, txt = some t ∧ t ≠ [] ∧ ∃ k ∈ keywords, lowerStr k <:+: lowerStr t := by
  cases txt with
  | none => simp [keywordMatch]
  | some t =>
    simp [keywordMatch, List.any_eq_true, substrOf_iff, List.isEmpty_iff]

/-- C1 counterexample: a message whose text is the *empty* string is present
(non-null) and the empty keyword is a case-insensitive substring of it, yet
the filter drops it (Python string truthiness): the claimed iff fails. -/
theorem filter_retains_empty_text_counterexample :
    filter_posts_by_keywords [[]]
        [(⟨0, none⟩, ⟨1, some [], 0, none, none⟩, ['g'])] = [] ∧
    (some ([] : List Char) ≠ none) ∧ lowerStr [] <:+: lowerStr [] :=
  ⟨by decide, by decide, List.infix_rfl⟩

/-- C1 (amended): the keyword filter retains a tuple iff its message text is
present (non-null) *and non-empty* and at least one keyword is a
case-insensitive substring of it; uniformly for the post filter and the
comment filter. -/
theorem keyword_filter_iff (keywords : List (List Char))
    (stream : Entity → Nat → ReplyStreamResult) (posts : List PostTuple)
    (x : PostTuple) (y : CommentTuple) :
    (x ∈ filter_posts_by_keywords keywords posts ↔
      x ∈ posts ∧ ∃ t, x.2.1.text = some t ∧ t ≠ [] ∧
        ∃ k ∈ keywords, lowerStr k <:+: lowerStr t) ∧
    (y ∈ fetch_comments stream keywords posts ↔
      y ∈ collect_comments stream posts ∧ ∃ t, y.2.1.text = some t ∧ t ≠ [] ∧
        ∃ k ∈ keywords, lowerStr k <:+: lowerStr t) := by
  constructor
  · rw [filter_posts_by_keywords, List.mem_filter, keywordMatch_iff]
  · rw [fetch_comments, List.mem_filter, keywordMatch_iff]

/-- Closed instance of the amended C1 theorem. -/
theorem keyword_filter_iff_witness :
    ((⟨0, none⟩, ⟨1, some ['A'], 0, none, none⟩, ['g']) : PostTuple) ∈
        filter_posts_by_keywords [['a']]
          [(⟨0, none⟩, ⟨1, some ['A'], 0, none, none⟩, ['g'])] :=
  ((keyword_filter_iff [['a']] (fun _ _ => ⟨[], false⟩)
      [(⟨0, none⟩, ⟨1, some ['A'], 0, none, none⟩, ['g'])]
      (⟨0, none⟩, ⟨1, some ['A'], 0, none, none⟩, ['g'])
      (⟨0, none⟩, ⟨1, some ['A'], 0, none, none⟩, ['g'], ⟨1, some ['A'], 0, none, none⟩)).1).mpr
    ⟨by decide, ['A'], rfl, by decide, ['a'], by decide, by decide⟩

/-- C5 counterexample: at a current instant two hours past local midnight,
window 1 gives a threshold one hour past midnight, which is *later* than the
window-0 threshold (midnight), so monotonicity fails once the H = 0 case is
included. -/
theorem time_filter_monotone_counterexample :
    (1 : Nat) ≥ 0 ∧
    ¬ (_get_time_filter ⟨0, 7200⟩ 1).toSec ≤ (_get_time_filter ⟨0, 7200⟩ 0).toSec :=
  ⟨by decide, by decide⟩

theorem toSec_localOfSec (s : Int) : (localOfSec s).toSec = s := by
  simp only [localOfSec, LocalDateTime.toSec]
  omega

/-- C5 (amended): window 0 yields local midnight of the current date; window
H > 0 yields now minus H hours; and the threshold is monotone
(`resolve(H1) <= resolve(H2)` whenever `H1 >= H2`) on windows `H >= 1` — the
H = 0 case is excluded, since midnight can be earlier than now − H hours. -/
theorem time_filter_spec (now : LocalDateTime) :
    _get_time_filter now 0 = now.replaceMidnight ∧
    (_get_time_filter now 0).toSec = now.toSec - now.sod ∧
    (∀ h : Nat, h ≠ 0 → (_get_time_filter now h).toSec = now.toSec - h * 3600) ∧
    (∀ h1 h2 : Nat, 1 ≤ h2 → h2 ≤ h1 →
      (_get_time_filter now h1).toSec ≤ (_get_time_filter now h2).toSec) := by
  have hsub : ∀ h : Nat, h ≠ 0 → (_get_time_filter now h).toSec = now.toSec - h * 3600 := by
    intro h hh
    simp only [_get_time_filter, if_neg hh, LocalDateTime.subHours, toSec_localOfSec]
  refine ⟨rfl, ?_, hsub, ?_⟩
  · show now.replaceMidnight.toSec = now.toSec - now.sod
    simp only [LocalDateTime.replaceMidnight, LocalDateTime.toSec]
    omega
  · intro h1 h2 h2pos h21
    rw [hsub h1 (by omega), hsub h2 (by omega)]
    have : (h2 : Int) * 3600 ≤ (h1 : Int) * 3600 := by
      have : (h2 : Int) ≤ (h1 : Int) := by exact_mod_cast h21
      omega
    omega

/-- Closed instance of the amended C5 theorem. -/
theorem time_filter_spec_witness :
    (_get_time_filter ⟨5, 3700⟩ 2).toSec = (⟨5, 3700⟩ : LocalDateTime).toSec - 2 * 3600 ∧
    (_get_time_filter ⟨5, 3700⟩ 3).toSec ≤ (_get_time_filter ⟨5, 3700⟩ 2).toSec :=
  ⟨(time_filter_spec ⟨5, 3700⟩).2.2.1 2 (by decide),
   (time_filter_spec ⟨5, 3700⟩).2.2.2 3 2 (by decide) (by decide)⟩

theorem filter_orderedInsert_post (d : Int) (a : PostTuple) (l : List PostTuple) :
    (List.orderedInsert postDateLE a l).filter (fun x => x.2.1.date == d) =
      if a.2.1.date == d then a :: l.filter (fun x => x.2.1.date == d)
      else l.filter (fun x => x.2.1.date == d) := by
  induction l with
  | nil => by_cases h : a.2.1.date == d <;> simp [List.orderedInsert, h]
  | cons b l ih =>
    by_cases hab : postDateLE a b
    · rw [List.orderedInsert_of_le _ _ hab]
      by_cases h : a.2.1.date == d <;> simp [List.filter_cons, h]
    · have hstep : List.orderedInsert postDateLE a (b :: l) =
          b :: List.orderedInsert postDateLE a l := by
        simp [List.orderedInsert, hab]
      rw [hstep, List.filter_cons, ih]
      by_cases hb : b.2.1.date == d <;> by_cases ha : a.2.1.date == d <;>
          simp only [hb, ha, if_true, if_false, List.filter_cons]
      · exfalso
        simp only [beq_iff_eq] at hb ha
        exact hab (by simp only [postDateLE, hb, ha, le_refl])
      · simp [hb]
      · simp [hb]
      · simp [hb]

theorem filter_insertionSort_post (d : Int) (l : List PostTuple) :
    (List.insertionSort postDateLE l).filter (fun x => x.2.1.date == d) =
      l.filter (fun x => x.2.1.date == d) := by
  induction l with
  | nil => rfl
  | cons a l ih =>
    rw [List.insertionSort, filter_orderedInsert_post, List.filter_cons, ih]

theorem filter_orderedInsert_comment (d : Int) (a : CommentTuple) (l : List CommentTuple) :
    (List.orderedInsert commentDateLE a l).filter (fun x => x.2.1.date == d) =
      if a.2.1.date == d then a :: l.filter (fun x => x.2.1.date == d)
      else l.filter (fun x => x.2.1.date == d) := by
  induction l with
  | nil => by_cases h : a.2.1.date == d <;> simp [List.orderedInsert, h]
  | cons b l ih =>
    by_cases hab : commentDateLE a b
    · rw [List.orderedInsert_of_le _ _ hab]
      by_cases h : a.2.1.date == d <;> simp [List.filter_cons, h]
    · have hstep : List.orderedInsert commentDateLE a (b :: l) =
          b :: List.orderedInsert commentDateLE a l := by
        simp [List.orderedInsert, hab]
      rw [hstep, List.filter_cons, ih]
      by_cases hb : b.2.1.date == d <;> by_cases ha : a.2.1.date == d <;>
          simp only [hb, ha, if_true, if_false, List.filter_cons]
      · exfalso
        simp only [beq_iff_eq] at hb ha
        exact hab (by simp only [commentDateLE, hb, ha, le_refl])
      · simp [hb]
      · simp [hb]
      · simp [hb]

theorem filter_insertionSort_comment (d : Int) (l : List CommentTuple) :
    (List.insertionSort commentDateLE l).filter (fun x => x.2.1.date == d) =
      l.filter (fun x => x.2.1.date == d) := by
  induction l with
  | nil => rfl
  | cons a l ih =>
    rw [List.insertionSort, filter_orderedInsert_comment, List.filter_cons, ih]

/-- C3: both digest writers emit entries sorted ascending by timestamp
whatever the input order, the sort is stable (for every timestamp, the
subsequence of items carrying it keeps the input's relative order), and a
second `write` on the same (now sorted) list produces byte-identical
output. -/
theorem save_sorted_stable_idempotent (keywords : List (List Char))
    (posts : List PostTuple) (comments : List CommentTuple) :
    List.Sorted postDateLE (save_posts keywords posts).1 ∧
    (save_posts keywords posts).1.Perm posts ∧
    (∀ d : Int, (save_posts keywords posts).1.filter (fun x => x.2.1.date == d) =
      posts.filter (fun x => x.2.1.date == d)) ∧
    (save_posts keywords (save_posts keywords posts).1).2 = (save_posts keywords posts).2 ∧
    List.Sorted commentDateLE (save_comments keywords comments).1 ∧
    (save_comments keywords comments).1.Perm comments ∧
    (∀ d : Int, (save_comments keywords comments).1.filter (fun x => x.2.1.date == d) =
      comments.filter (fun x => x.2.1.date == d)) ∧
    (save_comments keywords (save_comments keywords comments).1).2 =
      (save_comments keywords comments).2 := by
  refine ⟨List.sorted_insertionSort postDateLE posts,
    List.perm_insertionSort postDateLE posts,
    fun d => filter_insertionSort_post d posts, ?_,
    List.sorted_insertionSort commentDateLE comments,
    List.perm_insertionSort commentDateLE comments,
    fun d => filter_insertionSort_comment d comments, ?_⟩
  · show ((List.insertionSort postDateLE (List.insertionSort postDateLE posts)).map
        (renderPostEntry keywords)).flatten = _
    rw [(List.sorted_insertionSort postDateLE posts).insertionSort_eq]
    rfl
  · show ((List.insertionSort commentDateLE (List.insertionSort commentDateLE comments)).map
        (renderCommentEntry keywords)).flatten = _
    rw [(List.sorted_insertionSort commentDateLE comments).insertionSort_eq]
    rfl

/-- C10: the writers hand back the caller's list reordered in place — after
the call the caller's list value is exactly the stable ascending-by-date sort
of what was passed in, a permutation of it (the elements themselves are
unchanged). -/
theorem save_mutates_in_place (keywords : List (List Char))
    (posts : List PostTuple) (comments : List CommentTuple) :
    (save_posts keywords posts).1 = List.insertionSort postDateLE posts ∧
    (save_posts keywords posts).1.Perm posts ∧
    List.Sorted postDateLE (save_posts keywords posts).1 ∧
    (save_comments keywords comments).1 = List.insertionSort commentDateLE comments ∧
    (save_comments keywords comments).1.Perm comments ∧
    List.Sorted commentDateLE (save_comments keywords comments).1 :=
  ⟨rfl, List.perm_insertionSort postDateLE posts,
    List.sorted_insertionSort postDateLE posts,
    rfl, List.perm_insertionSort commentDateLE comments,
    List.sorted_insertionSort commentDateLE comments⟩

theorem mem_fetch_group_posts {m : Message} {th : Int} {msgs : List Message}
    (h : m ∈ fetch_group_posts th msgs) : m.reply_to_msg_id = none := by
  induction msgs with
  | nil => simp [fetch_group_posts] at h
  | cons msg rest ih =>
    by_cases hd : msg.date < th
    · simp [fetch_group_posts, hd] at h
    · by_cases hr : msg.reply_to_msg_id = none
      · simp only [fetch_group_posts, if_neg hd, if_pos hr, List.mem_cons] at h
        rcases h with h1 | h1
        · rw [h1]; exact hr
        · exact ih h1
      · simp only [fetch_group_posts, if_neg hd, if_neg hr] at h
        exact ih h

/-- C4: no reply (a message with `reply_to_msg_id` set) is ever delivered by
`fetch_posts`, for any remote stream contents, and hence no reply reaches the
sorted posts-digest list either. -/
theorem fetch_posts_top_level (resolve : List Char → Option (Entity × List Message))
    (groups : List (List Char)) (time_threshold : Int) (keywords : List (List Char)) :
    (∀ x : PostTuple, x ∈ fetch_posts resolve groups time_threshold →
      x.2.1.reply_to_msg_id = none) ∧
    (∀ x : PostTuple,
      x ∈ (save_posts keywords (filter_posts_by_keywords keywords
          (fetch_posts resolve groups time_threshold))).1 →
      x.2.1.reply_to_msg_id = none) := by
  have h1 : ∀ x : PostTuple, x ∈ fetch_posts resolve groups time_threshold →
      x.2.1.reply_to_msg_id = none := by
    intro x hx
    rw [fetch_posts, List.mem_flatMap] at hx
    rcases hx with ⟨g, _, hg⟩
    rcases hres : resolve g with _ | ⟨e, msgs⟩ <;> rw [hres] at hg
    · simp at hg
    · rw [List.mem_map] at hg
      rcases hg with ⟨msg, hmsg, hx⟩
      rw [← hx]
      exact mem_fetch_group_posts hmsg
  refine ⟨h1, fun x hx => ?_⟩
  have hx2 : x ∈ filter_posts_by_keywords keywords
      (fetch_posts resolve groups time_threshold) :=
    (List.perm_insertionSort postDateLE _).mem_iff.mp hx
  exact h1 x (List.mem_of_mem_filter hx2)

/-- Closed instance of the C4 theorem at a concrete one-group remote. -/
theorem fetch_posts_top_level_witness :
    ((⟨7, none⟩, ⟨10, some ['a'], 5, none, none⟩, ['g']) : PostTuple) ∈
      fetch_posts (fun _ => some (⟨7, none⟩, [⟨10, some ['a'], 5, none, none⟩]))
        [['g']] 0 ∧
    (⟨10, some ['a'], 5, none, none⟩ : Message).reply_to_msg_id = none :=
  ⟨by decide,
   (fetch_posts_top_level (fun _ => some (⟨7, none⟩, [⟨10, some ['a'], 5, none, none⟩]))
      [['g']] 0 []).1 (⟨7, none⟩, ⟨10, some ['a'], 5, none, none⟩, ['g']) (by decide)⟩

/-- C7 counterexample: the reply stream of a post yields one matching comment
and then raises `MsgIdInvalidError`; the comment stays in the returned list
(the `except` clause only stops further iteration for that post), refuting
"no comment belonging to that post appears". -/
theorem fetch_comments_partial_counterexample :
    fetch_comments (fun _ _ => ⟨[⟨2, some ['u'], 1, some 1, none⟩], true⟩) [['u']]
        [(⟨0, none⟩, ⟨1, some ['t'], 0, none, some 1⟩, ['g'])] =
      [(⟨0, none⟩, ⟨2, some ['u'], 1, some 1, none⟩, ['g'],
        ⟨1, some ['t'], 0, none, some 1⟩)] ∧
    (⟨[⟨2, some ['u'], 1, some 1, none⟩], true⟩ : ReplyStreamResult).msgIdInvalid = true :=
  ⟨by decide, rfl⟩

/-- C7 (amended): the comment fetcher is per-post isolated and never aborts —
it processes a concatenation of posts independently, so an error at one post
never affects the comments collected for the others; for the failing post
exactly the replies yielded before the error are retained, and in particular
if the error is raised before anything is yielded, that post contributes no
comments at all. -/
theorem fetch_comments_isolation (stream : Entity → Nat → ReplyStreamResult)
    (keywords : List (List Char)) :
    (∀ posts1 posts2 : List PostTuple,
      fetch_comments stream keywords (posts1 ++ posts2) =
        fetch_comments stream keywords posts1 ++ fetch_comments stream keywords posts2) ∧
    (∀ x : PostTuple, (stream x.1 x.2.1.id).yielded = [] →
      fetch_comments stream keywords [x] = []) := by
  constructor
  · intro posts1 posts2
    simp [fetch_comments, collect_comments, List.flatMap_append, List.filter_append]
  · intro x hx
    cases hrep : x.2.1.replies <;>
      simp [fetch_comments, collect_comments, hx, hrep]

/-- Closed instance of the amended C7 theorem. -/
theorem fetch_comments_isolation_witness :
    fetch_comments (fun _ _ => ⟨[], true⟩) [['u']]
      [(⟨0, none⟩, ⟨1, some ['t'], 0, none, some 1⟩, ['g'])] = [] :=
  (fetch_comments_isolation (fun _ _ => ⟨[], true⟩) [['u']]).2
    (⟨0, none⟩, ⟨1, some ['t'], 0, none, some 1⟩, ['g']) (by decide)

/-- C8 counterexample: a concrete comment entry contains no line starting
with the grammar's date label, and its link line uses a different label: the
comments digest deviates from the single document grammar. -/
theorem comment_entry_grammar_counterexample :
    substrOf ('\n' :: "**Date:** ".data)
        (renderCommentEntry [['q']]
          (⟨0, none⟩, ⟨5, some ['x'], 0, some 3, none⟩, ['g'],
            ⟨3, some ['y'], 0, none, some 1⟩)) = false ∧
    ("**Date:** ".data).isPrefixOf
        (renderCommentEntry [['q']]
          (⟨0, none⟩, ⟨5, some ['x'], 0, some 3, none⟩, ['g'],
            ⟨3, some ['y'], 0, none, some 1⟩)) = false ∧
    substrOf ('\n' :: "**Comment Date:** ".data)
        (renderCommentEntry [['q']]
          (⟨0, none⟩, ⟨5, some ['x'], 0, some 3, none⟩, ['g'],
            ⟨3, some ['y'], 0, none, some 1⟩)) = true ∧
    substrOf ("[Post Link](".data)
        (renderCommentEntry [['q']]
          (⟨0, none⟩, ⟨5, some ['x'], 0, some 3, none⟩, ['g'],
            ⟨3, some ['y'], 0, none, some 1⟩)) = false ∧
    substrOf ("[Comment Link](".data)
        (renderCommentEntry [['q']]
          (⟨0, none⟩, ⟨5, some ['x'], 0, some 3, none⟩, ['g'],
            ⟨3, some ['y'], 0, none, some 1⟩)) = true :=
  ⟨by decide, by decide, by decide, by decide, by decide⟩

/-- C8 (amended): every posts-digest entry has a date line
"**Date:** <timestamp> (Kyiv)" and a link line "[Post Link](<link>)", while
every comments-digest entry instead uses the labels "**Comment Date:**" and
"[Comment Link](<link>)"; the digest files are exactly the concatenation of
their entries. -/
theorem digest_entry_grammar (keywords : List (List Char)) :
    (∀ x : PostTuple, ∃ a b : List Char,
      renderPostEntry keywords x =
        a ++ '\n' :: ("**Date:** ".data ++ fmtDateTime x.2.1.date ++
          " (Kyiv)".data ++ '\n' :: b)) ∧
    (∀ x : PostTuple, ∃ a b : List Char,
      renderPostEntry keywords x =
        a ++ "[Post Link](".data ++ postLink x.1 x.2.1 ++ ')' :: b) ∧
    (∀ y : CommentTuple, ∃ a b : List Char,
      renderCommentEntry keywords y =
        a ++ '\n' :: ("**Comment Date:** ".data ++ fmtDateTime y.2.1.date ++
          " (Kyiv)".data ++ '\n' :: b)) ∧
    (∀ y : CommentTuple, ∃ a b : List Char,
      renderCommentEntry keywords y =
        a ++ "[Comment Link](".data ++ commentLink y.1 y.2.2.2 y.2.1 ++ ')' :: b) ∧
    (∀ posts : List PostTuple, (save_posts keywords posts).2 =
      ((save_posts keywords posts).1.map (renderPostEntry keywords)).flatten) ∧
    (∀ comments : List CommentTuple, (save_comments keywords comments).2 =
      ((save_comments keywords comments).1.map (renderCommentEntry keywords)).flatten) := by
  refine ⟨fun x => ?_, fun x => ?_, fun y => ?_, fun y => ?_, fun _ => rfl, fun _ => rfl⟩
  · refine ⟨"### Group: ".data ++ x.2.2,
      '\n' :: ("**Post:**".data ++ "\n\n".data ++
        highlight_keywords (textOrEmpty x.2.1.text) keywords ++ "\n\n".data ++
        "[Post Link](".data ++ postLink x.1 x.2.1 ++ ")".data ++ "\n\n".data ++
        "---\n\n".data), ?_⟩
    simp only [renderPostEntry, show ("\n".data : List Char) = ['\n'] from rfl,
      show ("\n\n".data : List Char) = ['\n', '\n'] from rfl]
    simp [List.append_assoc]
  · refine ⟨"### Group: ".data ++ x.2.2 ++ "\n".data ++
      "**Date:** ".data ++ fmtDateTime x.2.1.date ++ " (Kyiv)".data ++ "\n\n".data ++
      "**Post:**".data ++ "\n\n".data ++
      highlight_keywords (textOrEmpty x.2.1.text) keywords ++ "\n\n".data,
      '\n' :: '\n' :: "---\n\n".data, ?_⟩
    simp only [renderPostEntry, show (")".data : List Char) = [')'] from rfl,
      show ("\n\n".data : List Char) = ['\n', '\n'] from rfl]
    simp [List.append_assoc]
  · refine ⟨"### Group: ".data ++ y.2.2.1,
      '\n' :: ("**Comment:**".data ++ "\n\n".data ++
        highlight_keywords (textOrEmpty y.2.1.text) keywords ++ "\n\n".data ++
        "[Comment Link](".data ++ commentLink y.1 y.2.2.2 y.2.1 ++ ")".data ++
        "\n\n".data ++ "---\n\n".data), ?_⟩
    simp only [renderCommentEntry, show ("\n".data : List Char) = ['\n'] from rfl,
      show ("\n\n".data : List Char) = ['\n', '\n'] from rfl]
    simp [List.append_assoc]
  · refine ⟨"### Group: ".data ++ y.2.2.1 ++ "\n".data ++
      "**Comment Date:** ".data ++ fmtDateTime y.2.1.date ++ " (Kyiv)".data ++
      "\n\n".data ++ "**Comment:**".data ++ "\n\n".data ++
      highlight_keywords (textOrEmpty y.2.1.text) keywords ++ "\n\n".data,
      '\n' :: '\n' :: "---\n\n".data, ?_⟩
    simp only [renderCommentEntry, show (")".data : List Char) = [')'] from rfl,
      show ("\n\n".data : List Char) = ['\n', '\n'] from rfl]
    simp [List.append_assoc]

/-- C9 counterexample: for a group entity without a public username the link
field is the literal placeholder `"No public link"`, which differs from the
claimed literal `"no public link"`. -/
theorem link_placeholder_counterexample :
    postLink ⟨0, none⟩ ⟨1, some ['t'], 0, none, none⟩ = "No public link".data ∧
    commentLink ⟨0, none⟩ ⟨1, some ['t'], 0, none, none⟩
      ⟨2, some ['u'], 1, some 1, none⟩ = "No public link".data ∧
    "No public link".data ≠ "no public link".data :=
  ⟨rfl, rfl, by decide⟩

/-- C9 (amended): with a public username the post link is
`https://t.me/<username>/<post-id>` and the comment link is the same URL plus
the `?comment=<comment-id>` anchor; without one, both links equal the literal
placeholder `"No public link"` (capital N) and are not URLs at all. -/
theorem link_construction (entity : Entity) (post comment : Message) :
    (entity.username = none →
      postLink entity post = "No public link".data ∧
      commentLink entity post comment = "No public link".data ∧
      ("https://".data).isPrefixOf (postLink entity post) = false) ∧
    (∀ username, entity.username = some username →
      postLink entity post =
        "https://t.me/".data ++ username ++ '/' :: Nat.toDigits 10 post.id ∧
      commentLink entity post comment =
        postLink entity post ++ "?comment=".data ++ Nat.toDigits 10 comment.id) := by
  constructor
  · intro h
    refine ⟨by simp [postLink, h], by simp [commentLink, h], ?_⟩
    simp only [postLink, h]
    decide
  · intro username h
    refine ⟨by simp [postLink, h], ?_⟩
    simp [postLink, commentLink, h, List.append_assoc]

/-- Closed instance of the amended C9 theorem. -/
theorem link_construction_witness :
    postLink ⟨0, none⟩ ⟨1, none, 0, none, none⟩ = "No public link".data ∧
    postLink ⟨0, some ['u']⟩ ⟨7, none, 0, none, none⟩ =
      "https://t.me/".data ++ ['u'] ++ '/' :: Nat.toDigits 10 7 :=
  ⟨((link_construction ⟨0, none⟩ ⟨1, none, 0, none, none⟩
      ⟨2, none, 0, none, none⟩).1 rfl).1,
   ((link_construction ⟨0, some ['u']⟩ ⟨7, none, 0, none, none⟩
      ⟨2, none, 0, none, none⟩).2 ['u'] rfl).1⟩

theorem reAlternatives_of_ne {keywords : List (List Char)} (hne : keywords ≠ []) :
    reAlternatives keywords = keywords := by
  cases keywords with
  | nil => exact absurd rfl hne
  | cons a as => rfl

theorem reMatchAt_some {keywords : List (List Char)} (hne : keywords ≠ [])
    {cs k : List Char} (h : reMatchAt keywords cs = some k) :
    k ∈ keywords ∧ lowerStr k <+: lowerStr cs := by
  rw [reMatchAt, reAlternatives_of_ne hne] at h
  have hp0 := List.find?_some h
  have hp : (lowerStr k).isPrefixOf (lowerStr cs) = true := hp0
  exact ⟨List.mem_of_find?_eq_some h, List.isPrefixOf_iff_prefix.mp hp⟩

theorem reMatchAt_none {keywords : List (List Char)} (hne : keywords ≠ [])
    {cs : List Char} (h : reMatchAt keywords cs = none) :
    ∀ k ∈ keywords, (lowerStr k).isPrefixOf (lowerStr cs) = false := by
  rw [reMatchAt, reAlternatives_of_ne hne, List.find?_eq_none] at h
  intro k hkm
  cases hb : (lowerStr k).isPrefixOf (lowerStr cs) with
  | false => rfl
  | true => exact absurd hb (h k hkm)

theorem reMatchAt_nil_none {keywords : List (List Char)} (hne : keywords ≠ [])
    (hk : ∀ k ∈ keywords, k ≠ []) : reMatchAt keywords [] = none := by
  cases hm : reMatchAt keywords [] with
  | none => rfl
  | some k =>
    rcases reMatchAt_some hne hm with ⟨hkm, hpre⟩
    have hknil : k = [] := by
      have h1 : lowerStr k = [] := List.prefix_nil.mp hpre
      simpa [lowerStr, List.map_eq_nil_iff] using h1
    exact absurd hknil (hk k hkm)

theorem blocksOfAux_raw (keywords : List (List Char)) :
    ∀ (fuel : Nat) (cs : List Char), cs.length ≤ fuel →
      ((blocksOfAux keywords fuel cs).map HlBlock.raw).flatten = cs := by
  intro fuel
  induction fuel with
  | zero =>
    intro cs h
    have hnil : cs = [] := List.length_eq_zero.mp (Nat.le_zero.mp h)
    subst hnil
    cases hm : reMatchAt keywords [] <;> simp [blocksOfAux, hm, HlBlock.raw]
  | succ fuel ih =>
    intro cs h
    cases cs with
    | nil => cases hm : reMatchAt keywords [] <;> simp [blocksOfAux, hm, HlBlock.raw]
    | cons c cs =>
      cases hm : reMatchAt keywords (c :: cs) with
      | none =>
        simp only [blocksOfAux, hm, List.map_cons, List.flatten_cons]
        rw [ih cs (by simpa using h)]
        rfl
      | some k =>
        by_cases hlen : k.length = 0
        · simp only [blocksOfAux, hm, if_pos hlen, List.map_cons, List.flatten_cons]
          rw [ih cs (by simpa using h)]
          rfl
        · simp only [blocksOfAux, hm, if_neg hlen, List.map_cons, List.flatten_cons]
          rw [ih ((c :: cs).drop k.length)
            (by simp only [List.length_drop, List.length_cons]
                simp only [List.length_cons] at h
                omega)]
          exact List.take_append_drop _ _

theorem blocksOfAux_render (keywords : List (List Char)) :
    ∀ (fuel : Nat) (cs : List Char),
      ((blocksOfAux keywords fuel cs).map HlBlock.render).flatten =
        reSubAux keywords fuel cs := by
  intro fuel
  induction fuel with
  | zero =>
    intro cs
    cases cs with
    | nil =>
      cases hm : reMatchAt keywords [] <;>
        simp [blocksOfAux, reSubAux, hm, HlBlock.render]
    | cons c cs => simp [blocksOfAux, reSubAux]
  | succ fuel ih =>
    intro cs
    cases cs with
    | nil =>
      cases hm : reMatchAt keywords [] <;>
        simp [blocksOfAux, reSubAux, hm, HlBlock.render]
    | cons c cs =>
      cases hm : reMatchAt keywords (c :: cs) with
      | none =>
        simp only [blocksOfAux, reSubAux, hm, List.map_cons, List.flatten_cons]
        rw [ih cs]
        rfl
      | some k =>
        by_cases hlen : k.length = 0
        · simp only [blocksOfAux, reSubAux, hm, if_pos hlen, List.map_cons,
            List.flatten_cons, HlBlock.render, if_pos, if_neg]
          rw [ih cs]
          simp [HlBlock.render]
        · simp only [blocksOfAux, reSubAux, hm, if_neg hlen, List.map_cons,
            List.flatten_cons]
          rw [ih ((c :: cs).drop k.length)]
          simp [HlBlock.render, List.append_assoc]

theorem blocksOfAux_decompOK {keywords : List (List Char)} (hne : keywords ≠ [])
    (hk : ∀ k ∈ keywords, k ≠ []) :
    ∀ (fuel : Nat) (cs : List Char), cs.length ≤ fuel →
      decompOK keywords (blocksOfAux keywords fuel cs) := by
  intro fuel
  induction fuel with
  | zero =>
    intro cs h
    have hnil : cs = [] := List.length_eq_zero.mp (Nat.le_zero.mp h)
    subst hnil
    simp [blocksOfAux, reMatchAt_nil_none hne hk, decompOK]
  | succ fuel ih =>
    intro cs h
    cases cs with
    | nil => simp [blocksOfAux, reMatchAt_nil_none hne hk, decompOK]
    | cons c cs =>
      cases hm : reMatchAt keywords (c :: cs) with
      | none =>
        simp only [blocksOfAux, hm, decompOK]
        refine ⟨by simp, fun _ => ⟨rfl, fun k hkm => ?_⟩, ih cs (by simpa using h)⟩
        have hflat :
            (((⟨[c], false⟩ :: blocksOfAux keywords fuel cs).map HlBlock.raw).flatten) =
              c :: cs := by
          simp only [List.map_cons, List.flatten_cons]
          rw [blocksOfAux_raw keywords fuel cs (by simpa using h)]
          rfl
        rw [hflat]
        exact reMatchAt_none hne hm k hkm
      | some k =>
        rcases reMatchAt_some hne hm with ⟨hkm, hpre⟩
        have hlen : k.length ≠ 0 := fun h0 =>
          hk k hkm (List.length_eq_zero.mp h0)
        simp only [blocksOfAux, hm, if_neg hlen, decompOK]
        refine ⟨fun _ => ⟨k, hkm, ?_⟩, by simp, ih _
          (by simp only [List.length_drop, List.length_cons]
              simp only [List.length_cons] at h
              omega)⟩
        have h1 := List.prefix_iff_eq_take.mp hpre
        have h2 : (lowerStr k).length = k.length := by
          simp [lowerStr]
        rw [h2] at h1
        simp only [lowerStr] at h1 ⊢
        rw [List.map_take, ← h1]

/-- C2 counterexample: with the empty keyword list the compiled pattern is
the empty pattern, which matches the empty string at every position, so the
output is not the unchanged text even though no keyword occurrence exists. -/
theorem highlight_empty_keywords_counterexample :
    highlight_keywords ['a'] [] ≠ ['a'] := by decide

/-- C2 (amended): for a *non-empty* keyword list whose keywords are all
non-empty, the highlighter decomposes the text into blocks: unmatched
single-character blocks pass through unchanged and start no keyword
occurrence, and matched blocks — each a case-insensitive occurrence of some
keyword, with the original casing kept — are wrapped in the emphasis markup
exactly once.  (For an empty keyword list, or an empty keyword, the empty
pattern also matches between characters, so the restriction is necessary.) -/
theorem highlight_decomposition (text : List Char) (keywords : List (List Char))
    (hne : keywords ≠ []) (hk : ∀ k ∈ keywords, k ≠ []) :
    ∃ L : List HlBlock,
      (L.map HlBlock.raw).flatten = text ∧
      (L.map HlBlock.render).flatten = highlight_keywords text keywords ∧
      decompOK keywords L :=
  ⟨hlBlocks text keywords,
   blocksOfAux_raw keywords text.length text le_rfl,
   blocksOfAux_render keywords text.length text,
   blocksOfAux_decompOK hne hk text.length text le_rfl⟩

/-- Closed instance of the amended C2 theorem. -/
theorem highlight_decomposition_witness :
    (([['x']] : List (List Char)) ≠ [] ∧ ∀ k ∈ ([['x']] : List (List Char)), k ≠ []) ∧
    ∃ L : List HlBlock,
      (L.map HlBlock.raw).flatten = ['a', 'X', 'b'] ∧
      (L.map HlBlock.render).flatten = highlight_keywords ['a', 'X', 'b'] [['x']] ∧
      decompOK [['x']] L :=
  ⟨⟨by decide, by decide⟩,
   highlight_decomposition ['a', 'X', 'b'] [['x']] (by decide) (by decide)⟩

theorem reMatchAt_length_perm {ks ks' : List (List Char)} (hp : ks.Perm ks')
    (hpf : ∀ k1 ∈ ks, ∀ k2 ∈ ks,
      (lowerStr k1).isPrefixOf (lowerStr k2) = true → k1.length = k2.length)
    (cs : List Char) :
    (reMatchAt ks cs).map List.length = (reMatchAt ks' cs).map List.length := by
  cases ks with
  | nil =>
    have hnil : ks' = [] := hp.symm.eq_nil
    subst hnil
    rfl
  | cons a as =>
    have hne : (a :: as) ≠ [] := by simp
    have hne' : ks' ≠ [] := by
      intro hnil
      subst hnil
      simp at hp
    cases hm : reMatchAt (a :: as) cs with
    | none =>
      have hnone : reMatchAt ks' cs = none := by
        rw [reMatchAt, reAlternatives_of_ne hne', List.find?_eq_none]
        intro k hkm
        have hfalse := reMatchAt_none hne hm k (hp.mem_iff.mpr hkm)
        simp [hfalse]
      rw [hnone]
    | some k =>
      rcases reMatchAt_some hne hm with ⟨hkm, hpre⟩
      cases ho : reMatchAt ks' cs with
      | none =>
        exfalso
        have hfalse := reMatchAt_none hne' ho k (hp.mem_iff.mp hkm)
        rw [List.isPrefixOf_iff_prefix.mpr hpre] at hfalse
        simp at hfalse
      | some k2 =>
        rcases reMatchAt_some hne' ho with ⟨hk2m, hpre2⟩
        have hk2ks : k2 ∈ a :: as := hp.mem_iff.mpr hk2m
        have hlen : k.length = k2.length := by
          rcases Nat.le_total (lowerStr k).length (lowerStr k2).length with hle | hle
          · exact hpf k hkm k2 hk2ks
              (List.isPrefixOf_iff_prefix.mpr (List.prefix_of_prefix_length_le hpre hpre2 hle))
          · exact (hpf k2 hk2ks k hkm
              (List.isPrefixOf_iff_prefix.mpr
                (List.prefix_of_prefix_length_le hpre2 hpre hle))).symm
        simp [hlen]

theorem subAux_perm_eq {ks ks' : List (List Char)} (hp : ks.Perm ks')
    (hpf : ∀ k1 ∈ ks, ∀ k2 ∈ ks,
      (lowerStr k1).isPrefixOf (lowerStr k2) = true → k1.length = k2.length) :
    ∀ (fuel : Nat) (cs : List Char),
      blocksOfAux ks fuel cs = blocksOfAux ks' fuel cs ∧
      reSubAux ks fuel cs = reSubAux ks' fuel cs := by
  intro fuel
  induction fuel with
  | zero =>
    intro cs
    cases cs with
    | nil =>
      have hml := reMatchAt_length_perm hp hpf []
      cases hm : reMatchAt ks [] with
      | none =>
        rw [hm] at hml
        cases hm' : reMatchAt ks' [] with
        | none => simp [blocksOfAux, reSubAux, hm, hm']
        | some k2 => rw [hm'] at hml; simp at hml
      | some k =>
        rw [hm] at hml
        cases hm' : reMatchAt ks' [] with
        | none => rw [hm'] at hml; simp at hml
        | some k2 => simp [blocksOfAux, reSubAux, hm, hm']
    | cons c cs => simp [blocksOfAux, reSubAux]
  | succ fuel ih =>
    intro cs
    cases cs with
    | nil =>
      have hml := reMatchAt_length_perm hp hpf []
      cases hm : reMatchAt ks [] with
      | none =>
        rw [hm] at hml
        cases hm' : reMatchAt ks' [] with
        | none => simp [blocksOfAux, reSubAux, hm, hm']
        | some k2 => rw [hm'] at hml; simp at hml
      | some k =>
        rw [hm] at hml
        cases hm' : reMatchAt ks' [] with
        | none => rw [hm'] at hml; simp at hml
        | some k2 => simp [blocksOfAux, reSubAux, hm, hm']
    | cons c cs =>
      have hml := reMatchAt_length_perm hp hpf (c :: cs)
      cases hm : reMatchAt ks (c :: cs) with
      | none =>
        rw [hm] at hml
        cases hm' : reMatchAt ks' (c :: cs) with
        | none =>
          simp only [blocksOfAux, reSubAux, hm, hm']
          exact ⟨by rw [(ih cs).1], by rw [(ih cs).2]⟩
        | some k2 => rw [hm'] at hml; simp at hml
      | some k =>
        rw [hm] at hml
        cases hm' : reMatchAt ks' (c :: cs) with
        | none => rw [hm'] at hml; simp at hml
        | some k2 =>
          rw [hm'] at hml
          have hlen : k.length = k2.length := by simpa using hml
          by_cases h0 : k.length = 0
          · simp only [blocksOfAux, reSubAux, hm, hm', if_pos h0, if_pos (hlen ▸ h0)]
            exact ⟨by rw [(ih cs).1], by rw [(ih cs).2]⟩
          · have h0' : ¬ k2.length = 0 := fun hh => h0 (by omega)
            simp only [blocksOfAux, reSubAux, hm, hm', if_neg h0, if_neg h0']
            rw [hlen]
            exact ⟨by rw [(ih ((c :: cs).drop k2.length)).1],
              by rw [(ih ((c :: cs).drop k2.length)).2]⟩

/-- C6 counterexample: with keyword lists that are permutations of each other
but where one keyword is a prefix of another, the alternation order decides
which occurrence matches: on "ab" the list put as "a|ab" matches (and wraps)
only "a", while "ab|a" matches "ab" — different occurrence sets and different
output. -/
theorem highlight_perm_counterexample :
    List.Perm [['a'], ['a', 'b']] [['a', 'b'], ['a']] ∧
    (hlBlocks ['a', 'b'] [['a'], ['a', 'b']]).filter (fun b => b.isMatch) ≠
      (hlBlocks ['a', 'b'] [['a', 'b'], ['a']]).filter (fun b => b.isMatch) ∧
    highlight_keywords ['a', 'b'] [['a'], ['a', 'b']] ≠
      highlight_keywords ['a', 'b'] [['a', 'b'], ['a']] :=
  ⟨by decide, by decide, by decide⟩

/-- C6 (amended): provided no keyword's lowercased form is a proper prefix of
another's (so the alternation order cannot decide between two different
match lengths), permuting the keyword list changes neither the block
decomposition — in particular the matched occurrences — nor the output. -/
theorem highlight_perm_invariant (text : List Char) (ks ks' : List (List Char))
    (hp : ks.Perm ks')
    (hpf : ∀ k1 ∈ ks, ∀ k2 ∈ ks,
      (lowerStr k1).isPrefixOf (lowerStr k2) = true → k1.length = k2.length) :
    hlBlocks text ks = hlBlocks text ks' ∧
    highlight_keywords text ks = highlight_keywords text ks' :=
  ⟨(subAux_perm_eq hp hpf text.length text).1,
   (subAux_perm_eq hp hpf text.length text).2⟩

/-- Closed instance of the amended C6 theorem. -/
theorem highlight_perm_invariant_witness :
    hlBlocks ['a', 'b'] [['a'], ['b']] = hlBlocks ['a', 'b'] [['b'], ['a']] ∧
    highlight_keywords ['a', 'b'] [['a'], ['b']] =
      highlight_keywords ['a', 'b'] [['b'], ['a']] :=
  highlight_perm_invariant ['a', 'b'] [['a'], ['b']] [['b'], ['a']]
    (by decide) (by decide)

end TelegramChecker
